import Mathlib

/-!
Shallow embedding of `src/codesitter/analyzers/registry.py`.

The registry stores analyzer instances keyed by language name
(`_analyzers`) together with a derived extension-to-language index
(`_extension_map`).  Python `dict`s are modelled as insertion-ordered
association lists, Python object identity by an explicit `instId` field,
and Python class objects (`type(x)` / `x.__class__`) by a `PyClass`
value carrying an identity and a `__name__`.  `str.lower` is modelled on
its ASCII fragment, which is the fragment exercised by file extensions.
-/

/-- Insertion-ordered association list standing for a Python `dict`:
assignment replaces the value in place when the key is already present and
appends at the end otherwise, matching CPython's insertion-order semantics. -/
def dictInsert {α : Type} : List (String × α) → String → α → List (String × α)
  | [], k, v => [(k, v)]
  | (k0, v0) :: rest, k, v =>
    if k0 = k then (k0, v) :: rest else (k0, v0) :: dictInsert rest k v

/-- Python `dict.get`: the value stored at the key, if any. -/
def dictGet {α : Type} : List (String × α) → String → Option α
  | [], _ => none
  | (k0, v0) :: rest, k => if k0 = k then some v0 else dictGet rest k

/-- The `result[class_name].extend(...)` pattern of `list_analyzers`: append
to the list stored at the key when present, otherwise add a fresh entry. -/
def dictExtend : List (String × List String) → String → List String → List (String × List String)
  | [], k, v => [(k, v)]
  | (k0, v0) :: rest, k, v =>
    if k0 = k then (k0, v0 ++ v) :: rest else (k0, v0) :: dictExtend rest k v

/-- A Python class object: an identity (distinguishing two distinct classes
that may share a `__name__`) together with its `__name__`. -/
structure PyClass where
  clsId : Nat
  name : String
deriving DecidableEq

/-- An analyzer instance as the registry sees it: its object identity, its
class, and the `language_name` / `supported_extensions` attributes required
by the `LanguageAnalyzer` contract. -/
structure LanguageAnalyzer where
  instId : Nat
  cls : PyClass
  language_name : String
  supported_extensions : List String
deriving DecidableEq

/-- The state of `AnalyzerRegistry`: `_analyzers` and `_extension_map`. -/
structure AnalyzerRegistry where
  analyzers : List (String × LanguageAnalyzer)
  extension_map : List (String × String)
deriving DecidableEq

/-- `AnalyzerRegistry.__init__`: both dicts start empty. -/
def emptyRegistry : AnalyzerRegistry := ⟨[], []⟩

/-- `AnalyzerRegistry.register`: store the analyzer under its language name
and point every supported extension at that language. -/
def AnalyzerRegistry.register (r : AnalyzerRegistry) (analyzer : LanguageAnalyzer) :
    AnalyzerRegistry :=
  { analyzers := dictInsert r.analyzers analyzer.language_name analyzer,
    extension_map := analyzer.supported_extensions.foldl
      (fun m ext => dictInsert m ext analyzer.language_name) r.extension_map }

/-- Registering a whole sequence of analyzers in order, starting from `r`. -/
def registerAll (r : AnalyzerRegistry) (as : List LanguageAnalyzer) : AnalyzerRegistry :=
  as.foldl (fun r a => r.register a) r

/-- Index of the last occurrence of `c` in `l`, as `str.rfind` computes it
(`none` standing for Python's `-1`). -/
def lastIdxOf (c : Char) : List Char → Option Nat
  | [] => none
  | x :: xs =>
    match lastIdxOf c xs with
    | some i => some (i + 1)
    | none => if x = c then some 0 else none

/-- The extension component of `posixpath.splitext`: the suffix from the last
dot, provided that dot lies after the last path separator and is preceded,
within the final segment, by at least one non-dot character (CPython skips
the leading dots of the final segment, so `".bashrc"` has no extension). -/
def splitextExt (p : List Char) : List Char :=
  match lastIdxOf '.' p with
  | none => []
  | some d =>
    match lastIdxOf '/' p with
    | none => if (p.take d).any (fun c => c != '.') then p.drop d else []
    | some s =>
      if s + 1 ≤ d ∧ ((p.drop (s + 1)).take (d - (s + 1))).any (fun c => c != '.')
      then p.drop d else []

/-- Python `str.lower` on one character, restricted to its ASCII fragment
(the registry only ever lower-cases file extensions). -/
def pyLowerChar (c : Char) : Char :=
  if 65 ≤ c.toNat ∧ c.toNat ≤ 90 then Char.ofNat (c.toNat + 32) else c

/-- The lookup key `os.path.splitext(filename)[1].lower()` computed by
`get_analyzer_for_file`. -/
def extOf (filename : String) : String :=
  ⟨(splitextExt filename.data).map pyLowerChar⟩

/-- The body of `get_analyzer_for_file` after the extension is computed:
`self._extension_map.get(ext)` guarded by Python truthiness (`if language:`,
so an empty language string behaves like no match), then
`self._analyzers.get(language)`. -/
def AnalyzerRegistry.lookupExt (r : AnalyzerRegistry) (ext : String) :
    Option LanguageAnalyzer :=
  match dictGet r.extension_map ext with
  | some language => if language = "" then none else dictGet r.analyzers language
  | none => none

/-- `AnalyzerRegistry.get_analyzer_for_file`. -/
def AnalyzerRegistry.get_analyzer_for_file (r : AnalyzerRegistry) (filename : String) :
    Option LanguageAnalyzer :=
  r.lookupExt (extOf filename)

/-- `AnalyzerRegistry.get_analyzer_by_language`. -/
def AnalyzerRegistry.get_analyzer_by_language (r : AnalyzerRegistry) (language : String) :
    Option LanguageAnalyzer :=
  dictGet r.analyzers language

/-- `AnalyzerRegistry.list_supported_extensions`: a copy of the index. -/
def AnalyzerRegistry.list_supported_extensions (r : AnalyzerRegistry) :
    List (String × String) :=
  r.extension_map

/-- `AnalyzerRegistry.list_analyzers`: iterate `self._analyzers.values()` in
insertion order and extend `result[analyzer.__class__.__name__]` with the
analyzer's supported extensions. -/
def AnalyzerRegistry.list_analyzers (r : AnalyzerRegistry) : List (String × List String) :=
  r.analyzers.foldl
    (fun result p => dictExtend result p.2.cls.name p.2.supported_extensions) []

/-- One candidate plugin file as `auto_discover` sees it: the file name and
the outcome of importing it.  A successful import yields, in `dir(module)`
order, one entry per `LanguageAnalyzer` subclass found in the module, each
being either the instantiated analyzer or an instantiation failure. -/
structure PluginFile where
  name : String
  load : Except Unit (List (Except Unit LanguageAnalyzer))

/-- The `py_file.name.startswith("__")` test of `auto_discover`, computed on
the character list so that it evaluates inside the kernel. -/
def startsWithDunder (s : String) : Bool :=
  match s.data with
  | '_' :: '_' :: _ => true
  | _ => false

/-- The registration loop inside the per-file `try` block: register each
instantiated analyzer until the first raising instantiation, whose exception
aborts the rest of this file (but keeps the registrations already made). -/
def processItems (r : AnalyzerRegistry) : List (Except Unit LanguageAnalyzer) → AnalyzerRegistry
  | [] => r
  | Except.ok a :: rest => processItems (r.register a) rest
  | Except.error _ :: _ => r

/-- Processing of one globbed file by `auto_discover`: skip dunder-named
files; a failing import is caught and logged, leaving the state unchanged. -/
def processFile (r : AnalyzerRegistry) (f : PluginFile) : AnalyzerRegistry :=
  if startsWithDunder f.name then r
  else
    match f.load with
    | Except.error _ => r
    | Except.ok items => processItems r items

/-- `AnalyzerRegistry.auto_discover`: `none` models a path for which
`path.exists()` is false (warn and return); `some files` models the
`path.glob` listing of an existing directory, processed file by file. -/
def AnalyzerRegistry.auto_discover (r : AnalyzerRegistry) (dir : Option (List PluginFile)) :
    AnalyzerRegistry :=
  match dir with
  | none => r
  | some files => files.foldl processFile r

/-- The analyzers a single file contributes, in processing order. -/
def fileAnalyzers (f : PluginFile) : List LanguageAnalyzer :=
  if startsWithDunder f.name then []
  else
    match f.load with
    | Except.error _ => []
    | Except.ok items => itemsUntilError items
where
  itemsUntilError : List (Except Unit LanguageAnalyzer) → List LanguageAnalyzer
    | [] => []
    | Except.ok a :: rest => a :: itemsUntilError rest
    | Except.error _ :: _ => []

/-- All analyzers a directory listing contributes, in processing order. -/
def filesAnalyzers : List PluginFile → List LanguageAnalyzer
  | [] => []
  | f :: rest => fileAnalyzers f ++ filesAnalyzers rest

/-- Modelled from the spec: `DefaultAnalyzer` lives in the absent
`analyzers/base.py`; per the spec it is a generic fallback analyzer bound to
the given extension set and language name.  All instances share the one
`DefaultAnalyzer` class. -/
def DefaultAnalyzer (exts : List String) (lang : String) : LanguageAnalyzer :=
  { instId := 0, cls := ⟨0, "DefaultAnalyzer"⟩,
    language_name := lang, supported_extensions := exts }

/-- The `skip_languages` set of `register_defaults`. -/
def skip_languages : List String := ["typescript", "javascript", "python", "java"]

/-- The hardcoded `defaults` list of `register_defaults`, in source order. -/
def default_analyzers : List LanguageAnalyzer :=
  [ DefaultAnalyzer [".html", ".htm"] "html",
    DefaultAnalyzer [".css", ".scss", ".sass"] "css",
    DefaultAnalyzer [".json"] "json",
    DefaultAnalyzer [".yaml", ".yml"] "yaml",
    DefaultAnalyzer [".toml"] "toml",
    DefaultAnalyzer [".xml"] "xml",
    DefaultAnalyzer [".sh", ".bash"] "bash",
    DefaultAnalyzer [".c"] "c",
    DefaultAnalyzer [".cpp", ".cc", ".cxx"] "cpp",
    DefaultAnalyzer [".rs"] "rust",
    DefaultAnalyzer [".go"] "go",
    DefaultAnalyzer [".rb"] "ruby",
    DefaultAnalyzer [".php"] "php",
    DefaultAnalyzer [".swift"] "swift",
    DefaultAnalyzer [".kt", ".kts"] "kotlin",
    DefaultAnalyzer [".scala"] "scala" ]

/-- `register_defaults` acting on a registry: register each default unless
its language name is in `skip_languages`. -/
def register_defaults (r : AnalyzerRegistry) : AnalyzerRegistry :=
  default_analyzers.foldl
    (fun r a => if a.language_name ∈ skip_languages then r else r.register a) r

/-- The final path segment: everything after the last separator. -/
def finalSegment (p : List Char) : List Char :=
  match lastIdxOf '/' p with
  | none => p
  | some s => p.drop (s + 1)

/-- The extension exactly as claim C2 words it: the substring from the last
dot to the end of the final path segment, lower-cased; empty when the final
segment contains no dot. -/
def claimedExt (p : List Char) : List Char :=
  match lastIdxOf '.' (finalSegment p) with
  | none => []
  | some d => ((finalSegment p).drop d).map pyLowerChar

/-- The amended wording of claim C2: as `claimedExt`, except that a dot only
separates an extension when some earlier character of the final segment is
not itself a dot (so dotfiles such as `".bashrc"` have no extension). -/
def claimedExtAmended (p : List Char) : List Char :=
  match lastIdxOf '.' (finalSegment p) with
  | none => []
  | some d =>
    if ((finalSegment p).take d).any (fun c => c != '.')
    then ((finalSegment p).drop d).map pyLowerChar else []

/-- Sample analyzer builder for concrete witnesses: instance `i` of a class
named `cn` (class identity `i`), registered for `lang` with extensions
`exts`. -/
def mkA (i : Nat) (cn : String) (lang : String) (exts : List String) : LanguageAnalyzer :=
  ⟨i, ⟨i, cn⟩, lang, exts⟩

/-- Directory listing for the C7 witness: one raising plugin file followed by
one well-formed plugin file. -/
def c7WitnessDir : List PluginFile :=
  [ ⟨"bad.py", Except.error ()⟩,
    ⟨"good.py", Except.ok [Except.ok (mkA 3 "GoodAnalyzer" "good" [".g"])]⟩ ]

/-- Directory listing for the C7 counterexample: two well-formed plugin files
whose analyzers share a language name. -/
def c7ClashDir : List PluginFile :=
  [ ⟨"one.py", Except.ok [Except.ok (mkA 1 "OneAnalyzer" "clash" [".one"])]⟩,
    ⟨"two.py", Except.ok [Except.ok (mkA 2 "TwoAnalyzer" "clash" [".two"])]⟩ ]

/-- Concatenation of the supported extensions of a list of analyzers, in
order; the shape of the lists `list_analyzers` builds. -/
def extsConcat (as : List LanguageAnalyzer) : List String :=
  as.foldr (fun a acc => a.supported_extensions ++ acc) []

/-- The weak half of the C1 invariant: every language named by the extension
index is a key of the analyzers dict. -/
def LangPresent (r : AnalyzerRegistry) : Prop :=
  ∀ ext lang, dictGet r.extension_map ext = some lang →
    ∃ a, dictGet r.analyzers lang = some a

/-- The full C1 invariant: the owning analyzer moreover still supports the
indexed extension. -/
def ExtConsistent (r : AnalyzerRegistry) : Prop :=
  ∀ ext lang, dictGet r.extension_map ext = some lang →
    ∃ a, dictGet r.analyzers lang = some a ∧ ext ∈ a.supported_extensions

theorem dictGet_dictInsert {α : Type} (d : List (String × α)) (k q : String) (v : α) :
    dictGet (dictInsert d k v) q = if q = k then some v else dictGet d q := by
  induction d with
  | nil =>
    simp only [dictInsert, dictGet]
    by_cases h : q = k
    · subst h; simp
    · rw [if_neg (fun hh => h hh.symm), if_neg h]
  | cons p rest ih =>
    obtain ⟨k0, v0⟩ := p
    simp only [dictInsert]
    by_cases h : k0 = k
    · subst h
      simp only [dictGet]
      by_cases hq : k0 = q
      · subst hq; simp
      · rw [if_neg hq, if_neg (fun hh => hq hh.symm), if_neg hq]
    · rw [if_neg h]
      simp only [dictGet, ih]
      by_cases hq : k0 = q
      · subst hq
        rw [if_pos rfl, if_neg h, if_pos rfl]
      · rw [if_neg hq]
        by_cases hqk : q = k
        · rw [if_pos hqk, if_pos hqk]
        · rw [if_neg hqk, if_neg hqk, if_neg hq]

theorem dictGet_dictExtend (d : List (String × List String)) (k q : String) (v : List String) :
    dictGet (dictExtend d k v) q =
      if q = k then some ((dictGet d k).getD [] ++ v) else dictGet d q := by
  induction d with
  | nil =>
    simp only [dictExtend, dictGet]
    by_cases h : q = k
    · subst h; simp
    · rw [if_neg (fun hh => h hh.symm), if_neg h]
  | cons p rest ih =>
    obtain ⟨k0, v0⟩ := p
    simp only [dictExtend]
    by_cases h : k0 = k
    · subst h
      simp only [dictGet]
      by_cases hq : k0 = q
      · subst hq; simp
      · rw [if_neg hq, if_neg (fun hh => hq hh.symm), if_neg hq]
    · rw [if_neg h]
      simp only [dictGet, ih]
      by_cases hq : k0 = q
      · subst hq
        rw [if_pos rfl, if_neg h, if_pos rfl]
      · rw [if_neg hq]
        by_cases hqk : q = k
        · rw [if_pos hqk, if_pos hqk, if_neg h]
        · rw [if_neg hqk, if_neg hqk, if_neg hq]

theorem dictGet_foldl_dictInsert (exts : List String) (m : List (String × String))
    (lang e : String) :
    dictGet (exts.foldl (fun m x => dictInsert m x lang) m) e =
      if e ∈ exts then some lang else dictGet m e := by
  induction exts generalizing m with
  | nil => simp
  | cons x xs ih =>
    simp only [List.foldl_cons, ih, dictGet_dictInsert, List.mem_cons]
    by_cases hx : e ∈ xs
    · simp [hx]
    · by_cases he : e = x <;> simp [hx, he]

/-- Effect of `register` on the extension index. -/
theorem register_extension_map (r : AnalyzerRegistry) (a : LanguageAnalyzer) (e : String) :
    dictGet (r.register a).extension_map e =
      if e ∈ a.supported_extensions then some a.language_name
      else dictGet r.extension_map e :=
  dictGet_foldl_dictInsert a.supported_extensions r.extension_map a.language_name e

/-- Effect of `register` on the analyzers dict. -/
theorem register_analyzers (r : AnalyzerRegistry) (a : LanguageAnalyzer) (lang : String) :
    dictGet (r.register a).analyzers lang =
      if lang = a.language_name then some a else dictGet r.analyzers lang :=
  dictGet_dictInsert r.analyzers a.language_name lang a

theorem langPresent_register (r : AnalyzerRegistry) (a : LanguageAnalyzer)
    (h : LangPresent r) : LangPresent (r.register a) := by
  intro ext lang hget
  rw [register_extension_map] at hget
  by_cases hmem : ext ∈ a.supported_extensions
  · rw [if_pos hmem] at hget
    obtain rfl := (Option.some.inj hget).symm
    exact ⟨a, by rw [register_analyzers, if_pos rfl]⟩
  · rw [if_neg hmem] at hget
    obtain ⟨b, hb⟩ := h ext lang hget
    by_cases hl : lang = a.language_name
    · exact ⟨a, by rw [register_analyzers, if_pos hl]⟩
    · exact ⟨b, by rw [register_analyzers, if_neg hl]; exact hb⟩

theorem langPresent_registerAll (as : List LanguageAnalyzer) (r : AnalyzerRegistry)
    (h : LangPresent r) : LangPresent (registerAll r as) := by
  induction as generalizing r with
  | nil => exact h
  | cons a rest ih => exact ih (r.register a) (langPresent_register r a h)

theorem extConsistent_register_fresh (r : AnalyzerRegistry) (a : LanguageAnalyzer)
    (h : ExtConsistent r) (hf : dictGet r.analyzers a.language_name = none) :
    ExtConsistent (r.register a) := by
  intro ext lang hget
  rw [register_extension_map] at hget
  by_cases hmem : ext ∈ a.supported_extensions
  · rw [if_pos hmem] at hget
    obtain rfl := (Option.some.inj hget).symm
    exact ⟨a, by rw [register_analyzers, if_pos rfl], hmem⟩
  · rw [if_neg hmem] at hget
    obtain ⟨b, hb, hbe⟩ := h ext lang hget
    have hne : lang ≠ a.language_name := by
      rintro rfl
      rw [hf] at hb
      exact Option.noConfusion hb
    exact ⟨b, by rw [register_analyzers, if_neg hne]; exact hb, hbe⟩

theorem extConsistent_registerAll (as : List LanguageAnalyzer) (r : AnalyzerRegistry)
    (h : ExtConsistent r)
    (hfresh : ∀ b ∈ as, dictGet r.analyzers b.language_name = none)
    (hnodup : as.Pairwise fun x y => x.language_name ≠ y.language_name) :
    ExtConsistent (registerAll r as) := by
  induction as generalizing r with
  | nil => exact h
  | cons a rest ih =>
    rcases List.pairwise_cons.mp hnodup with ⟨hhead, htail⟩
    refine ih (r.register a)
      (extConsistent_register_fresh r a h (hfresh a (List.mem_cons_self a rest))) ?_ htail
    intro b hb
    rw [register_analyzers, if_neg (fun hh => hhead b hb hh.symm)]
    exact hfresh b (List.mem_cons_of_mem a hb)

/-- C1 (amended): in every reachable registry state, every `(ext, lang)`
pair of the extension index has `lang` present in the analyzers dict; when
additionally no two `register` calls of the sequence share a language name,
the owning analyzer's `supported_extensions` also contains `ext`. -/
theorem c1_extension_index_invariant (as : List LanguageAnalyzer) (ext lang : String)
    (hget : dictGet (registerAll emptyRegistry as).extension_map ext = some lang) :
    (∃ a, dictGet (registerAll emptyRegistry as).analyzers lang = some a) ∧
    ((as.Pairwise fun x y => x.language_name ≠ y.language_name) →
      ∃ a, dictGet (registerAll emptyRegistry as).analyzers lang = some a ∧
        ext ∈ a.supported_extensions) := by
  constructor
  · exact langPresent_registerAll as emptyRegistry
      (fun e l h => Option.noConfusion h) ext lang hget
  · intro hnd
    exact extConsistent_registerAll as emptyRegistry
      (fun e l h => Option.noConfusion h) (fun b _ => rfl) hnd ext lang hget

/-- Witness for C1 at a concrete one-element sequence. -/
theorem c1_extension_index_invariant_witness :
    (∃ a, dictGet (registerAll emptyRegistry
        [mkA 1 "PyAnalyzer" "python" [".py"]]).analyzers "python" = some a) ∧
    (([mkA 1 "PyAnalyzer" "python" [".py"]].Pairwise
        fun x y => x.language_name ≠ y.language_name) →
      ∃ a, dictGet (registerAll emptyRegistry
          [mkA 1 "PyAnalyzer" "python" [".py"]]).analyzers "python" = some a ∧
        ".py" ∈ a.supported_extensions) :=
  c1_extension_index_invariant [mkA 1 "PyAnalyzer" "python" [".py"]] ".py" "python" (by decide)

/-- Counterexample to C1 as stated: re-registering language `"lang"` with a
different extension set leaves the stale pair `(".x", "lang")` in the index
while the current analyzer for `"lang"` no longer supports `".x"`. -/
theorem c1_counterexample :
    dictGet (registerAll emptyRegistry
      [mkA 1 "OldAnalyzer" "lang" [".x"], mkA 2 "NewAnalyzer" "lang" [".y"]]).extension_map ".x"
      = some "lang" ∧
    dictGet (registerAll emptyRegistry
      [mkA 1 "OldAnalyzer" "lang" [".x"], mkA 2 "NewAnalyzer" "lang" [".y"]]).analyzers "lang"
      = some (mkA 2 "NewAnalyzer" "lang" [".y"]) ∧
    ((mkA 2 "NewAnalyzer" "lang" [".y"]).supported_extensions.contains ".x") = false := by
  decide

/-- C3: immediately after `register(a)`, `get_analyzer_by_language` on
`a.language_name` returns `a`; after a second registration under the same
language name, it returns the second instance instead. -/
theorem c3_register_then_lookup (r : AnalyzerRegistry) (a b : LanguageAnalyzer)
    (h : b.language_name = a.language_name) :
    (r.register a).get_analyzer_by_language a.language_name = some a ∧
    ((r.register a).register b).get_analyzer_by_language a.language_name = some b := by
  constructor
  · show dictGet (r.register a).analyzers a.language_name = some a
    rw [register_analyzers, if_pos rfl]
  · show dictGet ((r.register a).register b).analyzers a.language_name = some b
    rw [register_analyzers, if_pos h.symm]

/-- Witness for C3 at two concrete instances sharing a language name. -/
theorem c3_register_then_lookup_witness :
    (emptyRegistry.register (mkA 1 "PyA" "python" [".py"])).get_analyzer_by_language
        "python" = some (mkA 1 "PyA" "python" [".py"]) ∧
    ((emptyRegistry.register (mkA 1 "PyA" "python" [".py"])).register
        (mkA 2 "PyB" "python" [".py"])).get_analyzer_by_language "python"
        = some (mkA 2 "PyB" "python" [".py"]) :=
  c3_register_then_lookup emptyRegistry
    (mkA 1 "PyA" "python" [".py"]) (mkA 2 "PyB" "python" [".py"]) rfl

/-- C8: `auto_discover` on a path that does not name an existing directory
returns normally and leaves the registry state unchanged. -/
theorem c8_missing_dir_noop (r : AnalyzerRegistry) : r.auto_discover none = r := rfl

/-- C5 (amended): after registering `a` and then `b`, both supporting `e`, a
filename whose computed extension is `e` resolves to `b`, provided `b`'s
language name is non-empty (the lookup's truthiness test treats an empty
language string as no match). -/
theorem c5_extension_last_write_wins (r : AnalyzerRegistry) (a b : LanguageAnalyzer)
    (e f : String) (ha : e ∈ a.supported_extensions) (hb : e ∈ b.supported_extensions)
    (hlang : b.language_name ≠ "") (hf : extOf f = e) :
    ((r.register a).register b).get_analyzer_for_file f = some b := by
  unfold AnalyzerRegistry.get_analyzer_for_file AnalyzerRegistry.lookupExt
  rw [hf, register_extension_map, if_pos hb]
  show (if b.language_name = "" then none
    else dictGet ((r.register a).register b).analyzers b.language_name) = some b
  rw [if_neg hlang, register_analyzers, if_pos rfl]

/-- Witness for C5 at concrete analyzers fighting over `".foo"`. -/
theorem c5_extension_last_write_wins_witness :
    ((emptyRegistry.register (mkA 1 "FooA" "foolang" [".foo"])).register
        (mkA 2 "FooB" "barlang" [".foo"])).get_analyzer_for_file "m.foo"
      = some (mkA 2 "FooB" "barlang" [".foo"]) :=
  c5_extension_last_write_wins emptyRegistry (mkA 1 "FooA" "foolang" [".foo"])
    (mkA 2 "FooB" "barlang" [".foo"]) ".foo" "m.foo"
    (by decide) (by decide) (by decide) (by decide)

/-- Counterexample to C5 as stated: when the later analyzer's language name
is the empty string, the lookup's `if language:` truthiness test makes the
file lookup return nothing rather than that analyzer, even though both
analyzers claim the file's extension. -/
theorem c5_counterexample :
    ((emptyRegistry.register (mkA 1 "XA" "xlang" [".x"])).register
        (mkA 2 "XB" "" [".x"])).get_analyzer_for_file "f.x" = none ∧
    ((mkA 1 "XA" "xlang" [".x"]).supported_extensions.contains ".x") = true ∧
    ((mkA 2 "XB" "" [".x"]).supported_extensions.contains ".x") = true ∧
    extOf "f.x" = ".x" := by
  decide

theorem register_defaults_foldl (ds : List LanguageAnalyzer) (r : AnalyzerRegistry)
    (lang : String) (h : ∀ d ∈ ds, d.language_name ≠ lang) :
    (ds.foldl (fun r a => if a.language_name ∈ skip_languages then r
        else r.register a) r).get_analyzer_by_language lang
      = r.get_analyzer_by_language lang := by
  induction ds generalizing r with
  | nil => rfl
  | cons d rest ih =>
    have hd : d.language_name ≠ lang := h d (List.mem_cons_self d rest)
    have hrest : ∀ x ∈ rest, x.language_name ≠ lang :=
      fun x hx => h x (List.mem_cons_of_mem d hx)
    rw [List.foldl_cons]
    by_cases hskip : d.language_name ∈ skip_languages
    · rw [if_pos hskip]
      exact ih r hrest
    · rw [if_neg hskip, ih (r.register d) hrest]
      show dictGet (r.register d).analyzers lang = dictGet r.analyzers lang
      rw [register_analyzers, if_neg (fun hh => hd hh.symm)]

/-- C9: a custom analyzer previously registered under one of the excluded
languages (`"python"`, `"typescript"`, `"javascript"`, `"java"`) is still the
analyzer returned for that language after `register_defaults`. -/
theorem c9_defaults_skip_custom (r : AnalyzerRegistry) (a : LanguageAnalyzer)
    (h : a.language_name ∈ skip_languages) :
    (register_defaults (r.register a)).get_analyzer_by_language a.language_name
      = some a := by
  have hall : ∀ d ∈ default_analyzers, d.language_name ≠ a.language_name := by
    have hcases : a.language_name = "typescript" ∨ a.language_name = "javascript" ∨
        a.language_name = "python" ∨ a.language_name = "java" := by
      simpa [skip_languages] using h
    rcases hcases with h1 | h1 | h1 | h1 <;> rw [h1] <;> decide
  unfold register_defaults
  rw [register_defaults_foldl default_analyzers (r.register a) a.language_name hall]
  show dictGet (r.register a).analyzers a.language_name = some a
  rw [register_analyzers, if_pos rfl]

/-- Witness for C9: a concrete custom python analyzer survives the defaults. -/
theorem c9_defaults_skip_custom_witness :
    (register_defaults (emptyRegistry.register
        (mkA 9 "CustomPy" "python" [".py"]))).get_analyzer_by_language "python"
      = some (mkA 9 "CustomPy" "python" [".py"]) :=
  c9_defaults_skip_custom emptyRegistry (mkA 9 "CustomPy" "python" [".py"]) (by decide)

theorem processItems_eq (items : List (Except Unit LanguageAnalyzer)) (r : AnalyzerRegistry) :
    processItems r items = registerAll r (fileAnalyzers.itemsUntilError items) := by
  induction items generalizing r with
  | nil => rfl
  | cons i rest ih =>
    cases i with
    | ok a => exact ih (r.register a)
    | error e => rfl

theorem processFile_eq (f : PluginFile) (r : AnalyzerRegistry) :
    processFile r f = registerAll r (fileAnalyzers f) := by
  unfold processFile fileAnalyzers
  cases h : startsWithDunder f.name with
  | true => simp [h, registerAll]
  | false =>
    simp only [h, Bool.false_eq_true, if_false]
    cases hload : f.load with
    | error e => rfl
    | ok items => exact processItems_eq items r

theorem auto_discover_eq (files : List PluginFile) (r : AnalyzerRegistry) :
    r.auto_discover (some files) = registerAll r (filesAnalyzers files) := by
  induction files generalizing r with
  | nil => rfl
  | cons f rest ih =>
    have step : r.auto_discover (some (f :: rest))
        = (processFile r f).auto_discover (some rest) := rfl
    rw [step, ih (processFile r f), processFile_eq]
    show registerAll (registerAll r (fileAnalyzers f)) (filesAnalyzers rest)
      = registerAll r (fileAnalyzers f ++ filesAnalyzers rest)
    unfold registerAll
    rw [List.foldl_append]

theorem get_by_language_registerAll (as : List LanguageAnalyzer) (r : AnalyzerRegistry)
    (lang : String) :
    (registerAll r as).get_analyzer_by_language lang =
      as.foldl (fun acc a => if a.language_name = lang then some a else acc)
        (r.get_analyzer_by_language lang) := by
  induction as generalizing r with
  | nil => rfl
  | cons a rest ih =>
    show (registerAll (r.register a) rest).get_analyzer_by_language lang = _
    rw [ih, List.foldl_cons]
    congr 1
    show dictGet (r.register a).analyzers lang = _
    rw [register_analyzers]
    by_cases h : a.language_name = lang
    · rw [if_pos h.symm, if_pos h]
    · rw [if_neg (fun hh => h hh.symm), if_neg h]
      rfl

theorem foldl_pick_of_no_match (l : List LanguageAnalyzer) (o : Option LanguageAnalyzer)
    (lang : String) (h : ∀ b ∈ l, b.language_name ≠ lang) :
    l.foldl (fun acc a => if a.language_name = lang then some a else acc) o = o := by
  induction l generalizing o with
  | nil => rfl
  | cons b rest ih =>
    rw [List.foldl_cons, if_neg (h b (List.mem_cons_self b rest))]
    exact ih o (fun x hx => h x (List.mem_cons_of_mem b hx))

/-- C7 (amended): `auto_discover` of an existing directory raises nothing and
equals registering, in order, the analyzers of the well-formed prefix of each
successfully imported non-dunder file; such an analyzer is afterwards
retrievable by its language name provided no later-processed analyzer shares
that language name (later registrations overwrite earlier ones). -/
theorem c7_discover_isolation (r : AnalyzerRegistry) (files : List PluginFile)
    (l1 : List LanguageAnalyzer) (a : LanguageAnalyzer) (l2 : List LanguageAnalyzer)
    (hsplit : filesAnalyzers files = l1 ++ a :: l2)
    (hlast : ∀ b ∈ l2, b.language_name ≠ a.language_name) :
    r.auto_discover (some files) = registerAll r (filesAnalyzers files) ∧
    (r.auto_discover (some files)).get_analyzer_by_language a.language_name = some a := by
  refine ⟨auto_discover_eq files r, ?_⟩
  rw [auto_discover_eq files r, hsplit, get_by_language_registerAll,
    List.foldl_append, List.foldl_cons, if_pos rfl]
  exact foldl_pick_of_no_match l2 (some a) a.language_name hlast

/-- Witness for C7: one raising plugin file beside one well-formed plugin
file; the well-formed file's analyzer is registered and retrievable. -/
theorem c7_discover_isolation_witness :
    emptyRegistry.auto_discover (some c7WitnessDir)
        = registerAll emptyRegistry (filesAnalyzers c7WitnessDir) ∧
    (emptyRegistry.auto_discover (some c7WitnessDir)).get_analyzer_by_language "good"
        = some (mkA 3 "GoodAnalyzer" "good" [".g"]) :=
  c7_discover_isolation emptyRegistry c7WitnessDir [] (mkA 3 "GoodAnalyzer" "good" [".g"]) []
    (by decide) (fun b hb => absurd hb (List.not_mem_nil b))

/-- Counterexample to C7 as stated: two well-formed plugin files registering
the same language name; the first file's analyzer is no longer retrievable
after the scan, so not every analyzer from a well-formed file is. -/
theorem c7_counterexample :
    (emptyRegistry.auto_discover (some c7ClashDir)).get_analyzer_by_language "clash"
      = some (mkA 2 "TwoAnalyzer" "clash" [".two"]) ∧
    ¬ ((emptyRegistry.auto_discover (some c7ClashDir)).get_analyzer_by_language "clash"
      = some (mkA 1 "OneAnalyzer" "clash" [".one"])) := by
  decide

theorem extsConcat_nil : extsConcat [] = [] := rfl

theorem extsConcat_cons (a : LanguageAnalyzer) (l : List LanguageAnalyzer) :
    extsConcat (a :: l) = a.supported_extensions ++ extsConcat l := rfl

theorem foldl_dictExtend_snd (l : List (String × LanguageAnalyzer))
    (acc : List (String × List String)) :
    l.foldl (fun result p => dictExtend result p.2.cls.name p.2.supported_extensions) acc
      = (l.map Prod.snd).foldl
          (fun res a => dictExtend res a.cls.name a.supported_extensions) acc := by
  induction l generalizing acc with
  | nil => rfl
  | cons p rest ih => exact ih (dictExtend acc p.2.cls.name p.2.supported_extensions)

theorem dictGet_listAnalyzersFold (as : List LanguageAnalyzer)
    (acc : List (String × List String)) (cn : String) :
    dictGet (as.foldl (fun res a => dictExtend res a.cls.name a.supported_extensions) acc) cn =
      match dictGet acc cn with
      | some l => some (l ++ extsConcat (as.filter fun a => a.cls.name == cn))
      | none =>
        if (as.filter fun a => a.cls.name == cn).isEmpty then none
        else some (extsConcat (as.filter fun a => a.cls.name == cn)) := by
  induction as generalizing acc with
  | nil =>
    cases h : dictGet acc cn <;> simp [h, extsConcat]
  | cons a rest ih =>
    rw [List.foldl_cons, ih, dictGet_dictExtend]
    by_cases hcn : a.cls.name = cn
    · subst hcn
      rw [if_pos rfl]
      simp only [List.filter_cons, beq_self_eq_true, if_pos rfl, extsConcat_cons]
      cases h : dictGet acc a.cls.name with
      | none =>
        simp [List.isEmpty_cons, extsConcat_cons]
      | some l =>
        simp [List.append_assoc, extsConcat_cons]
    · rw [if_neg (fun hh => hcn hh.symm)]
      have hfilter : ((a :: rest).filter fun x => x.cls.name == cn)
          = rest.filter fun x => x.cls.name == cn := by
        simp [List.filter_cons, hcn]
      rw [hfilter]

/-- C6 (amended): `list_analyzers` returns one entry per distinct analyzer
class NAME among the registered analyzers (not per distinct class identity):
the entry for a name holds the concatenation, in registration order, of the
supported extensions of every registered analyzer bearing that class name.
Two entries registered under different language names but backed by the same
class are therefore grouped, but so are two distinct classes sharing a name. -/
theorem c6_list_analyzers_by_class_name (r : AnalyzerRegistry) (cn : String) :
    dictGet r.list_analyzers cn =
      (if ((r.analyzers.map Prod.snd).filter fun a => a.cls.name == cn).isEmpty then none
       else some (extsConcat
         ((r.analyzers.map Prod.snd).filter fun a => a.cls.name == cn))) := by
  show dictGet (r.analyzers.foldl
      (fun result p => dictExtend result p.2.cls.name p.2.supported_extensions) []) cn = _
  rw [foldl_dictExtend_snd, dictGet_listAnalyzersFold]
  rfl

/-- Counterexample to C6 as stated: two analyzers of distinct implementation
types (different class identities) sharing the class name `"Gen"` are merged
into a single `list_analyzers` entry, so the result does not have one entry
per distinct implementation type. -/
theorem c6_counterexample :
    ((emptyRegistry.register (mkA 1 "Gen" "alang" [".a"])).register
        (mkA 2 "Gen" "blang" [".b"])).list_analyzers = [("Gen", [".a", ".b"])] ∧
    (mkA 1 "Gen" "alang" [".a"]).cls ≠ (mkA 2 "Gen" "blang" [".b"]).cls ∧
    ((emptyRegistry.register (mkA 1 "Gen" "alang" [".a"])).register
        (mkA 2 "Gen" "blang" [".b"])).analyzers.map Prod.snd
      = [mkA 1 "Gen" "alang" [".a"], mkA 2 "Gen" "blang" [".b"]] := by
  decide

theorem toNat_pyLowerChar_upper (c : Char) (h1 : 65 ≤ c.toNat) (h2 : c.toNat ≤ 90) :
    (pyLowerChar c).toNat = c.toNat + 32 := by
  have h : pyLowerChar c = Char.ofNat (c.toNat + 32) := by
    unfold pyLowerChar
    exact if_pos ⟨h1, h2⟩
  rw [h]
  generalize hn : c.toNat = n
  rw [hn] at h1 h2
  interval_cases n <;> decide

theorem pyLowerChar_fixes_of_not_upper (c : Char)
    (h : ¬ (65 ≤ c.toNat ∧ c.toNat ≤ 90)) : pyLowerChar c = c := by
  unfold pyLowerChar
  exact if_neg h

theorem pyLowerChar_not_upper (c : Char) :
    ¬ (65 ≤ (pyLowerChar c).toNat ∧ (pyLowerChar c).toNat ≤ 90) := by
  by_cases h : 65 ≤ c.toNat ∧ c.toNat ≤ 90
  · rw [toNat_pyLowerChar_upper c h.1 h.2]
    omega
  · rw [pyLowerChar_fixes_of_not_upper c h]
    exact h

theorem pyLowerChar_dot (c : Char) (h : pyLowerChar c = '.') : c = '.' := by
  by_cases hu : 65 ≤ c.toNat ∧ c.toNat ≤ 90
  · exfalso
    have ht := toNat_pyLowerChar_upper c hu.1 hu.2
    rw [h] at ht
    have h46 : ('.' : Char).toNat = 46 := rfl
    omega
  · rwa [pyLowerChar_fixes_of_not_upper c hu] at h

theorem pyLowerChar_slash (c : Char) (h : pyLowerChar c = '/') : c = '/' := by
  by_cases hu : 65 ≤ c.toNat ∧ c.toNat ≤ 90
  · exfalso
    have ht := toNat_pyLowerChar_upper c hu.1 hu.2
    rw [h] at ht
    have h47 : ('/' : Char).toNat = 47 := rfl
    omega
  · rwa [pyLowerChar_fixes_of_not_upper c hu] at h

theorem lastIdxOf_eq_none (c : Char) (l : List Char) (h : c ∉ l) : lastIdxOf c l = none := by
  induction l with
  | nil => rfl
  | cons x xs ih =>
    have hx : ¬ (x = c) := by
      intro hh
      subst hh
      exact h (List.mem_cons_self x xs)
    have hxs : c ∉ xs := fun hh => h (List.mem_cons_of_mem x hh)
    simp [lastIdxOf, ih hxs, hx]

theorem splitextExt_head (h0 : Char) (t : List Char)
    (hh : h0 ≠ '.') (hhs : h0 ≠ '/') (hdot : '.' ∉ t) (hslash : '/' ∉ t) :
    splitextExt (h0 :: '.' :: t) = '.' :: t := by
  have hd : lastIdxOf '.' (h0 :: '.' :: t) = some 1 := by
    simp [lastIdxOf, lastIdxOf_eq_none '.' t hdot]
  have hs : lastIdxOf '/' (h0 :: '.' :: t) = none := by
    apply lastIdxOf_eq_none
    intro hmem
    rcases List.mem_cons.mp hmem with h1 | hmem2
    · exact hhs h1.symm
    · rcases List.mem_cons.mp hmem2 with h2 | h3
      · exact absurd h2.symm (by decide)
      · exact hslash h3
  unfold splitextExt
  rw [hd, hs]
  simp [hh]

/-- C4 (amended): immediately after `register(a)`, a filename formed as
`"x"` plus any case-variant of a supported extension `e` resolves to `a`,
provided `e` is dot-prefixed with no further dot or separator, is reachable
at all (its lower-casing is itself, forced by the case-variant hypothesis),
and `a`'s language name is non-empty. -/
theorem c4_register_then_file_lookup (r : AnalyzerRegistry) (a : LanguageAnalyzer)
    (e euser : String) (t : List Char)
    (he : e ∈ a.supported_extensions)
    (hlang : a.language_name ≠ "")
    (hdata : e.data = '.' :: t)
    (hdot : '.' ∉ t) (hslash : '/' ∉ t)
    (huser : euser.data.map pyLowerChar = e.data) :
    (r.register a).get_analyzer_for_file ("x" ++ euser) = some a := by
  obtain ⟨l⟩ := euser
  rw [hdata] at huser
  have huser2 : l.map pyLowerChar = '.' :: t := huser
  cases l with
  | nil => exact absurd huser2 (by simp)
  | cons c0 t0 =>
    rw [List.map_cons] at huser2
    have hc0 : pyLowerChar c0 = '.' := (List.cons.injEq _ _ _ _ ▸ huser2).1
    have ht0 : t0.map pyLowerChar = t := (List.cons.injEq _ _ _ _ ▸ huser2).2
    obtain rfl : c0 = '.' := pyLowerChar_dot c0 hc0
    have hdot0 : '.' ∉ t0 := by
      intro hm
      have hmm := List.mem_map_of_mem pyLowerChar hm
      rw [ht0] at hmm
      have hppd : pyLowerChar '.' = '.' := by decide
      rw [hppd] at hmm
      exact hdot hmm
    have hslash0 : '/' ∉ t0 := by
      intro hm
      have hmm := List.mem_map_of_mem pyLowerChar hm
      rw [ht0] at hmm
      have hpps : pyLowerChar '/' = '/' := by decide
      rw [hpps] at hmm
      exact hslash hmm
    have hext : extOf ("x" ++ (⟨'.' :: t0⟩ : String)) = e := by
      unfold extOf
      have hd : ("x" ++ (⟨'.' :: t0⟩ : String)).data = 'x' :: '.' :: t0 := by
        rw [String.data_append]
        rfl
      rw [hd, splitextExt_head 'x' t0 (by decide) (by decide) hdot0 hslash0]
      rw [List.map_cons]
      have hppd : pyLowerChar '.' = '.' := by decide
      rw [hppd, ht0]
      cases e with
      | mk ed =>
        have hed : ed = '.' :: t := hdata
        rw [hed]
    show (r.register a).lookupExt (extOf ("x" ++ (⟨'.' :: t0⟩ : String))) = some a
    rw [hext]
    unfold AnalyzerRegistry.lookupExt
    rw [register_extension_map, if_pos he]
    show (if a.language_name = "" then none
      else dictGet (r.register a).analyzers a.language_name) = some a
    rw [if_neg hlang, register_analyzers, if_pos rfl]

/-- Witness for C4: extension `".rs"`, filename `"x.RS"` (upper-case
variant); the lookup still returns the registered analyzer. -/
theorem c4_register_then_file_lookup_witness :
    (emptyRegistry.register (mkA 1 "RustA" "rust" [".rs"])).get_analyzer_for_file
        ("x" ++ ".RS") = some (mkA 1 "RustA" "rust" [".rs"]) :=
  c4_register_then_file_lookup emptyRegistry (mkA 1 "RustA" "rust" [".rs"])
    ".rs" ".RS" ['r', 's'] (by decide) (by decide) rfl (by decide) (by decide) (by decide)

/-- Counterexample to C4 as stated: an extension registered with upper-case
letters (`".RS"`) is never matched, because only the filename side is
lower-cased; `lookupByFilename("x" + ".RS")` misses the analyzer. -/
theorem c4_counterexample :
    (emptyRegistry.register (mkA 1 "RustA" "rust" [".RS"])).get_analyzer_for_file
        ("x" ++ ".RS") = none ∧
    (emptyRegistry.register (mkA 1 "RustA" "rust" [".RS"])).get_analyzer_for_file
        ("x" ++ ".RS") ≠ some (mkA 1 "RustA" "rust" [".RS"]) ∧
    ((mkA 1 "RustA" "rust" [".RS"]).supported_extensions.contains ".RS") = true := by
  decide

theorem lastIdxOf_drop (c : Char) (k : Nat) (p : List Char) :
    lastIdxOf c (p.drop k) =
      match lastIdxOf c p with
      | none => none
      | some i => if k ≤ i then some (i - k) else none := by
  induction k generalizing p with
  | zero =>
    cases h : lastIdxOf c p <;> simp [h]
  | succ k ih =>
    cases p with
    | nil => simp [lastIdxOf]
    | cons x xs =>
      rw [List.drop_succ_cons, ih xs]
      cases h : lastIdxOf c xs with
      | some i =>
        have hcons : lastIdxOf c (x :: xs) = some (i + 1) := by
          simp [lastIdxOf, h]
        rw [hcons]
        show (if k ≤ i then some (i - k) else none)
          = (if k + 1 ≤ i + 1 then some (i + 1 - (k + 1)) else none)
        by_cases hk : k ≤ i
        · rw [if_pos hk, if_pos (Nat.succ_le_succ hk), Nat.succ_sub_succ]
        · rw [if_neg hk, if_neg (fun hh => hk (Nat.le_of_succ_le_succ hh))]
      | none =>
        by_cases hx : x = c
        · have hcons : lastIdxOf c (x :: xs) = some 0 := by
            simp [lastIdxOf, h, hx]
          rw [hcons]
          simp
        · have hcons : lastIdxOf c (x :: xs) = none := by
            simp [lastIdxOf, h, hx]
          rw [hcons]

/-- C2 (amended): the extension used by `get_analyzer_for_file` is the
lower-cased substring from the last dot of the final path segment, except
that a dot preceded only by dots within the segment does not count as an
extension separator (so dotfiles such as `".bashrc"` yield the empty
string), and the empty string results when the segment has no dot at all. -/
theorem c2_lookup_extension (f : String) :
    extOf f = ⟨claimedExtAmended f.data⟩ := by
  unfold extOf claimedExtAmended finalSegment
  apply congrArg String.mk
  cases hsep : lastIdxOf '/' f.data with
  | none =>
    cases hdot : lastIdxOf '.' f.data with
    | none => simp [splitextExt, hsep, hdot]
    | some d =>
      simp only [splitextExt, hsep, hdot]
      rw [apply_ite (List.map pyLowerChar)]
      simp
  | some s =>
    simp only [splitextExt, hsep]
    rw [lastIdxOf_drop '.' (s + 1) f.data]
    cases hdot : lastIdxOf '.' f.data with
    | none => simp [hdot]
    | some d =>
      simp only [hdot]
      by_cases hsd : s + 1 ≤ d
      · rw [if_pos hsd]
        show (if s + 1 ≤ d ∧ ((f.data.drop (s + 1)).take (d - (s + 1))).any
              (fun c => c != '.') then f.data.drop d else []).map pyLowerChar
            = (if ((f.data.drop (s + 1)).take (d - (s + 1))).any (fun c => c != '.')
              then ((f.data.drop (s + 1)).drop (d - (s + 1))).map pyLowerChar else [])
        have hdd : (f.data.drop (s + 1)).drop (d - (s + 1)) = f.data.drop d := by
          rw [List.drop_drop]
          congr 1
          omega
        rw [hdd, apply_ite (List.map pyLowerChar)]
        by_cases hany : ((f.data.drop (s + 1)).take (d - (s + 1))).any
            (fun c => c != '.') = true
        · rw [if_pos ⟨hsd, hany⟩, if_pos hany]
        · rw [if_neg (fun hc => hany hc.2), if_neg hany]
          simp
      · rw [if_neg hsd, if_neg (fun hc => hsd hc.1)]
        simp

/-- Counterexample to C2 as stated: on `".bashrc"` the claimed rule (suffix
from the last dot of the final segment) yields `".bashrc"`, but the code
computes the empty extension, because CPython's `splitext` does not treat
the leading dots of a segment as extension separators. -/
theorem c2_counterexample :
    claimedExt ".bashrc".data = ".bashrc".data ∧ extOf ".bashrc" = "" ∧
    extOf ".bashrc" ≠ (⟨claimedExt ".bashrc".data⟩ : String) := by
  decide

/-- C10: the key used by `get_analyzer_for_file` is always the lower-cased
computed extension, so it never equals an extension string containing an
upper-case ASCII letter; an analyzer registered only under such an extension
is unreachable through it. -/
theorem c10_uppercase_extension_unreachable (e : String)
    (h : ∃ c ∈ e.data, 65 ≤ c.toNat ∧ c.toNat ≤ 90) (r : AnalyzerRegistry) (f : String) :
    r.get_analyzer_for_file f = r.lookupExt (extOf f) ∧ extOf f ≠ e := by
  refine ⟨rfl, ?_⟩
  intro hext
  obtain ⟨c, hc, hup⟩ := h
  have hdata : e.data = (splitextExt f.data).map pyLowerChar := by
    rw [← hext]
    rfl
  rw [hdata] at hc
  obtain ⟨c0, hc0, hceq⟩ := List.mem_map.mp hc
  rw [← hceq] at hup
  exact pyLowerChar_not_upper c0 hup

/-- Witness for C10: the upper-case extension `".RS"` is never the computed
lookup key, in particular not for the filename `"x.RS"`. -/
theorem c10_uppercase_extension_unreachable_witness :
    emptyRegistry.get_analyzer_for_file "x.RS"
        = emptyRegistry.lookupExt (extOf "x.RS") ∧ extOf "x.RS" ≠ ".RS" :=
  c10_uppercase_extension_unreachable ".RS" (by decide) emptyRegistry "x.RS"
